import Mathlib

/-!
# Verification of the Impala Parquet scanner core (be/src/exec/hdfs-parquet-scanner.cc)

Shallow embedding of the data model and operations of the Parquet scanner,
translated from the C++ source, together with theorems settling the frozen
claims about the natural-language specification.

Conventions used throughout:
* C++ `int64_t` arithmetic is modelled with `Int`; C++ integer division
  (truncation toward zero) is `Int.tdiv`.
* Counters that can only grow are modelled with `Nat`.
* Fallible C++ code returning `Status` is modelled with `Except`/`Option`;
  distinct error messages become distinct constructors of an error type.
* C++ strings are modelled as `List Char`.
-/

namespace Impala

/-! ## MinMaxVal (be/src/runtime/minmax-value.h)

`MinMaxVal` is a pair of bounds with C++ members `min` and `max`.  The member
functions `SetMin`, `SetMax` and `SetMinMax` each take a parameter with the
same name as the member it is meant to update, so inside the body the
unqualified name resolves to the parameter, not the member.  To keep that
name-resolution step visible in the embedding (instead of silently folding it
away), the bodies are run through a tiny scoped-variable semantics:
an assignment updates the innermost binding of the name — the parameter list
first, the object's members only if no parameter has that name. -/

structure MinMaxVal where
  min : Int
  max : Int
  deriving DecidableEq, Repr

/-- Variable names that occur in the bodies of the `MinMaxVal` setters. -/
inductive MMName where
  | vmin
  | vmax
  deriving DecidableEq, Repr

/-- Scope of a `MinMaxVal` member function body: the parameters of the
function (innermost scope) over the object's members. -/
structure MMScope where
  params : List (MMName × Int)
  members : MinMaxVal
  deriving Repr

/-- Name lookup: parameters shadow members. -/
def MMScope.lookup (s : MMScope) (n : MMName) : Int :=
  match s.params.find? (fun p => p.1 = n) with
  | some p => p.2
  | none =>
    match n with
    | .vmin => s.members.min
    | .vmax => s.members.max

/-- Assignment `n = v`: writes to the innermost binding of `n`, i.e. to the
parameter when one of that name exists, otherwise to the member. -/
def MMScope.assign (s : MMScope) (n : MMName) (v : Int) : MMScope :=
  if (s.params.find? (fun p => p.1 = n)).isSome then
    { s with params := s.params.map (fun p => if p.1 = n then (p.1, v) else p) }
  else
    match n with
    | .vmin => { s with members := { s.members with min := v } }
    | .vmax => { s with members := { s.members with max := v } }

/-- `void SetMin(numtype min) { min = min; }` -/
def MinMaxVal.SetMin (self : MinMaxVal) (min : Int) : MinMaxVal :=
  let s : MMScope := { params := [(MMName.vmin, min)], members := self }
  let s := s.assign MMName.vmin (s.lookup MMName.vmin)
  s.members

/-- `void SetMax(numtype max) { max = max; }` -/
def MinMaxVal.SetMax (self : MinMaxVal) (max : Int) : MinMaxVal :=
  let s : MMScope := { params := [(MMName.vmax, max)], members := self }
  let s := s.assign MMName.vmax (s.lookup MMName.vmax)
  s.members

/-- `void SetMinMax(numtype min, numtype max) { min = min; max = max; }` -/
def MinMaxVal.SetMinMax (self : MinMaxVal) (min max : Int) : MinMaxVal :=
  let s : MMScope := { params := [(MMName.vmin, min), (MMName.vmax, max)], members := self }
  let s := s.assign MMName.vmin (s.lookup MMName.vmin)
  let s := s.assign MMName.vmax (s.lookup MMName.vmax)
  s.members

/-! ## CHAR conversion
(`ScalarColumnReader<StringValue, true>::ConvertSlot`, hdfs-parquet-scanner.cc:1009-1035)

The converted value is built by `memcpy(sv.ptr, src->ptr, min(len, src->len))`
followed by `StringValue::PadWithSpaces(sv.ptr, len, unpadded_len)`, which
fills the remaining bytes up to `len` with ASCII spaces.  The pool-allocation
branch only decides where the bytes live, not what they are. -/

/-- Byte content written by `ConvertSlot` for a `CHAR(declaredLen)` slot. -/
def convertSlotChar (declaredLen : Nat) (src : List Char) : List Char :=
  let unpaddedLen := min declaredLen src.length
  src.take unpaddedLen ++ List.replicate (declaredLen - unpaddedLen) ' '

/-! ## Row-group selection (`HdfsParquetScanner::ProcessSplit`,
hdfs-parquet-scanner.cc:1804-1853 and 1910-2009)

The row-group loop of `ProcessSplit` is modelled up to the point where a row
group is handed to `AssembleRows` ("processed").  External effects
(I/O issue, cancellation, the scan-node row limit and the outcome of
`AssembleRows` itself) are outside the selection logic the claims are about,
so the model assumes execution continues normally after each processed group;
the statistics conjunct evaluation (`StatisticsEvalConjuncts`) depends on the
query's predicates and is passed in as a function of the row-group index. -/

/-- `parquet::ColumnMetaData` — the fields used by offset validation and
row-group selection. -/
structure ColumnMetaData where
  data_page_offset : Int
  /-- `none` when `__isset.dictionary_page_offset` is false. -/
  dictionary_page_offset : Option Int
  total_compressed_size : Int
  /-- `num_values` of the column chunk metadata. -/
  num_values : Int
  deriving DecidableEq, Repr

/-- `parquet::RowGroup` — the fields used by `ProcessSplit`. -/
structure RowGroup where
  columns : List ColumnMetaData
  num_rows : Int
  deriving DecidableEq, Repr

/-- `GetColumnStartOffset` (hdfs-parquet-scanner.cc:1835-1841). -/
def GetColumnStartOffset (column : ColumnMetaData) : Int :=
  match column.dictionary_page_offset with
  | some o => o
  | none => column.data_page_offset

/-- `GetRowGroupMidOffset` (hdfs-parquet-scanner.cc:1844-1853).  The C++
indexes `columns[0]` and `columns[size - 1]`; on the (elsewhere rejected)
empty column list the model returns 0. -/
def GetRowGroupMidOffset (row_group : RowGroup) : Int :=
  match row_group.columns with
  | [] => 0
  | c0 :: rest =>
    let start_offset := GetColumnStartOffset c0
    let last_column := (c0 :: rest).getLast (by simp)
    let end_offset := GetColumnStartOffset last_column + last_column.total_compressed_size
    start_offset + (end_offset - start_offset).tdiv 2

/-- One column's checks inside `ValidateColumnOffsets`
(hdfs-parquet-scanner.cc:1804-1832): the dictionary page, when set, must
precede the data pages, and the column's end offset must lie in
`[1, file_length]`. -/
def columnOffsetsOk (file_length : Int) (col : ColumnMetaData) : Bool :=
  let dictOk :=
    match col.dictionary_page_offset with
    | some o => decide (o < col.data_page_offset)
    | none => true
  let col_start := GetColumnStartOffset col
  let col_end := col_start + col.total_compressed_size
  dictOk && decide (0 < col_end) && decide (col_end ≤ file_length)

/-- `ValidateColumnOffsets` returns OK iff every column passes. -/
def ValidateColumnOffsets (file_length : Int) (row_group : RowGroup) : Bool :=
  row_group.columns.all (columnOffsetsOk file_length)

/-- The midpoint test of `ProcessSplit` (hdfs-parquet-scanner.cc:1939-1943):
the row group is kept when `row_group_mid_pos ∈ [split_offset,
split_offset + split_length)`. -/
def rowGroupMidInSplit (split_offset split_length : Int) (row_group : RowGroup) : Bool :=
  let row_group_mid_pos := GetRowGroupMidOffset row_group
  decide (row_group_mid_pos ≥ split_offset) &&
    decide (row_group_mid_pos < split_offset + split_length)

/-- The row-group loop of `ProcessSplit` (hdfs-parquet-scanner.cc:1931-2008),
restricted to its selection decisions.  Returns the indices (starting at
`idx`) of the row groups that reach `AssembleRows`; `Except.error` models the
early `RETURN_IF_ERROR(ValidateColumnOffsets(...))`. -/
def processSplitFrom (file_length split_offset split_length : Int)
    (statsPass : Nat → Bool) : Nat → List RowGroup → Except Unit (List Nat)
  | _, [] => .ok []
  | idx, rg :: rest =>
    if rg.num_rows = 0 then
      -- `if (row_group.num_rows == 0) continue;`
      processSplitFrom file_length split_offset split_length statsPass (idx + 1) rest
    else if ValidateColumnOffsets file_length rg then
      if rowGroupMidInSplit split_offset split_length rg then
        if statsPass idx then
          -- the row group reaches AssembleRows
          (processSplitFrom file_length split_offset split_length statsPass (idx + 1) rest).map
            (fun l => idx :: l)
        else
          -- `if (!StatisticsEvalConjuncts(row)) continue;`
          processSplitFrom file_length split_offset split_length statsPass (idx + 1) rest
      else
        -- midpoint outside the split: `continue`
        processSplitFrom file_length split_offset split_length statsPass (idx + 1) rest
    else
      -- `RETURN_IF_ERROR(ValidateColumnOffsets(row_group));`
      .error ()

/-- Indices of the row groups of the file that `ProcessSplit` processes. -/
def processSplitRowGroups (file_length split_offset split_length : Int)
    (statsPass : Nat → Bool) (row_groups : List RowGroup) : Except Unit (List Nat) :=
  processSplitFrom file_length split_offset split_length statsPass 0 row_groups

/-! ## Runtime filter evaluation (`HdfsParquetScanner::EvalRuntimeFilters`,
hdfs-parquet-scanner.cc:2082-2110)

`LocalFilterStats` is declared in the scanner header (not part of the source
tree here); per the spec it consists of the counters
`{total_possible, considered, rejected}` and a boolean `enabled`, modelled
with `Nat` counters (the power-of-two periodicity check is unaffected by
fixed-width wraparound because `ROWS_PER_FILTER_SELECTIVITY_CHECK` divides
every power of two at least as large).  The double-precision comparison
`rejected / (double)considered < FLAGS_parquet_min_filter_reject_ratio` is
passed in as a function `ratioBelow` of the two integer counters; the
concrete default is `rejectRatioBelow FLAGS_parquet_min_filter_reject_ratio`
below, which follows IEEE semantics in making the comparison false when
`considered == 0` (NaN and +inf compare false against the threshold). -/

/-- `ROWS_PER_FILTER_SELECTIVITY_CHECK` (hdfs-parquet-scanner.cc:84). -/
def ROWS_PER_FILTER_SELECTIVITY_CHECK : Nat := 16 * 1024

/-- Default of the `parquet_min_filter_reject_ratio` flag
(hdfs-parquet-scanner.cc:64). -/
def FLAGS_parquet_min_filter_reject_ratio : ℚ := 1 / 10

/-- `reject_ratio < threshold` for `reject_ratio = rejected / considered`,
with the `considered == 0` cases (NaN, +inf) comparing false. -/
def rejectRatioBelow (threshold : ℚ) (rejected considered : Nat) : Bool :=
  decide (considered ≠ 0) && decide ((rejected : ℚ) / considered < threshold)

/-- Per-filter, per-scanner counters (`struct LocalFilterStats`). -/
structure LocalFilterStats where
  considered : Nat
  rejected : Nat
  total_possible : Nat
  enabled : Bool
  deriving DecidableEq, Repr

/-- What the external filter contributes on one row: whether
`filter->AlwaysTrue()` holds and whether `filter->Eval(...)` passes the
row's value. -/
structure FilterRowInput where
  alwaysTrue : Bool
  evalPasses : Bool
  deriving DecidableEq, Repr

/-- The body of the per-filter loop of `EvalRuntimeFilters` for one filter on
one row.  Returns the updated stats and `false` iff the filter rejected the
row. -/
def evalOneFilter (ratioBelow : Nat → Nat → Bool) (inp : FilterRowInput)
    (stats : LocalFilterStats) : LocalFilterStats × Bool :=
  if stats.enabled then
    -- `++stats->total_possible;`
    let tp := stats.total_possible + 1
    if (tp % ROWS_PER_FILTER_SELECTIVITY_CHECK == 0) &&
        (inp.alwaysTrue || ratioBelow stats.rejected stats.considered) then
      -- `stats->enabled = 0; continue;`
      ({ stats with total_possible := tp, enabled := false }, true)
    else
      -- `++stats->considered;` then evaluate the filter
      let s1 := { stats with total_possible := tp, considered := stats.considered + 1 }
      if inp.evalPasses then (s1, true)
      else ({ s1 with rejected := s1.rejected + 1 }, false)
  else
    -- `if (!stats->enabled) continue;`
    (stats, true)

/-- `EvalRuntimeFilters` over the filter list: short-circuits (returns
`false`) at the first rejecting filter, leaving the remaining filters'
stats untouched. -/
def EvalRuntimeFilters (ratioBelow : Nat → Nat → Bool) :
    List (FilterRowInput × LocalFilterStats) → List LocalFilterStats × Bool
  | [] => ([], true)
  | (inp, s) :: rest =>
    let r1 := evalOneFilter ratioBelow inp s
    if r1.2 then
      let rrest := EvalRuntimeFilters ratioBelow rest
      (r1.1 :: rrest.1, rrest.2)
    else
      (r1.1 :: rest.map Prod.snd, false)

/-- One filter's stats evolution across a sequence of rows that reach it. -/
def runFilterRows (ratioBelow : Nat → Nat → Bool) (rows : List FilterRowInput)
    (s : LocalFilterStats) : LocalFilterStats :=
  rows.foldl (fun st inp => (evalOneFilter ratioBelow inp st).1) s

/-! ## End-of-row-group validation (`HdfsParquetScanner::ValidateEndOfRowGroup`,
hdfs-parquet-scanner.cc:3217-3259)

The function is modelled under debug semantics: the two `DCHECK`s in the
scalar-reader loop (agreement of `num_values_read_` across readers, and
`num_values_read_ == metadata_->num_values || !abort_on_error`) abort a debug
build and are modelled as distinct errors. -/

/-- The per-reader state inspected by `ValidateEndOfRowGroup`. -/
structure EndOfGroupReader where
  /-- `IsCollectionReader()` — such readers are skipped by the scalar loop. -/
  isCollection : Bool
  max_rep_level : Nat
  num_buffered_values : Nat
  num_values_read : Nat
  /-- `metadata_->num_values` of the reader's column chunk. -/
  metadata_num_values : Nat
  deriving DecidableEq, Repr

inductive EndOfGroupError where
  /-- `PARQUET_GROUP_ROW_COUNT_ERROR` -/
  | groupRowCount
  /-- "metadata reports ... more values in data page than actually present" -/
  | bufferedValues
  /-- `DCHECK_EQ(reader->num_values_read_, num_values_read)` -/
  | valuesReadDisagree
  /-- `DCHECK(reader->num_values_read_ == reader->metadata_->num_values || !abort_on_error)` -/
  | columnIncomplete
  deriving DecidableEq, Repr

/-- The scalar-reader loop of `ValidateEndOfRowGroup`; `nvr` carries the
`num_values_read` local (`none` models its initial −1 sentinel). -/
def validateScalarReaders (abort_on_error : Bool) :
    Option Nat → List EndOfGroupReader → Except EndOfGroupError Unit
  | _, [] => .ok ()
  | nvr, r :: rest =>
    if r.isCollection then validateScalarReaders abort_on_error nvr rest
    else if r.num_buffered_values = 0 then
      let v := nvr.getD r.num_values_read
      if r.num_values_read = v then
        if r.num_values_read = r.metadata_num_values ∨ abort_on_error = false then
          validateScalarReaders abort_on_error (some v) rest
        else .error .columnIncomplete
      else .error .valuesReadDisagree
    else .error .bufferedValues

/-- `ValidateEndOfRowGroup`: the row-count check looks only at
`column_readers[0]`, then the scalar readers are validated. -/
def ValidateEndOfRowGroup (abort_on_error : Bool) (readers : List EndOfGroupReader)
    (expected_rows_in_group rows_read : Int) : Except EndOfGroupError Unit :=
  match readers with
  | [] => .ok ()  -- `DCHECK(!column_readers.empty())`; unreachable
  | r0 :: _ =>
    if r0.max_rep_level = 0 then
      if rows_read = expected_rows_in_group then
        validateScalarReaders abort_on_error none readers
      else .error .groupRowCount
    else validateScalarReaders abort_on_error none readers

/-! ## Path resolution dispatch (`HdfsParquetScanner::ResolvePath`,
hdfs-parquet-scanner.cc:2451-2487)

`ResolvePathHelper` (a per-convention traversal over the schema tree) has
three observable outcomes, modelled as `PathHelperResult`:
`resolved node pos_field` (Status OK, `*missing_field == false`; `node` is
`none` exactly in the artificial-position-field case, where the helper sets
`*pos_field` and `*node = NULL`), `missingField` (Status OK,
`*missing_field == true`), and `err e` (a non-OK Status, abstracted as a
number).  `ResolvePath` itself only dispatches on the three helper outcomes,
which is what the claim is about, so it is embedded as a function of those
outcomes. -/

inductive PathHelperResult where
  | resolved (node : Option Nat) (pos_field : Bool)
  | missingField
  | err (e : Nat)
  deriving DecidableEq, Repr

/-- The `status_X.ok() && !missing_field_X` test of `ResolvePath`. -/
def PathHelperResult.success? : PathHelperResult → Option (Option Nat × Bool)
  | .resolved n p => some (n, p)
  | _ => none

def PathHelperResult.isMissing : PathHelperResult → Bool
  | .missingField => true
  | _ => false

/-- Overall outcome of `ResolvePath` on success. -/
inductive ResolveOutcome where
  | resolved (node : Option Nat) (pos_field : Bool)
  | missingField
  deriving DecidableEq, Repr

/-- `ResolvePath`, as a function of the three helper outcomes for the
conventions TWO_LEVEL, THREE_LEVEL and ONE_LEVEL (tried in that order). -/
def ResolvePath (two three one : PathHelperResult) : Except Nat ResolveOutcome :=
  match two.success? with
  | some (n, p) => .ok (.resolved n p)
  | none =>
    match three.success? with
    | some (n, p) => .ok (.resolved n p)
    | none =>
      match one.success? with
      | some (n, p) => .ok (.resolved n p)
      | none =>
        -- `if (missing_field_one_level || missing_field_two_level || missing_field_three_level)`
        if one.isMissing || two.isMissing || three.isMissing then .ok .missingField
        else
          -- all three resolutions failed; return the three-level status
          match three with
          | .err e => .error e
          | _ => .ok .missingField  -- unreachable: `three` is neither success nor missing

/-! ## Scratch-tuple transfer (`HdfsParquetScanner::TransferScratchTuples`,
hdfs-parquet-scanner.cc:2012-2080)

The output batch is represented by its `capacity` and current `num_rows`;
the scratch batch by `num_tuples`, the cursor `tuple_idx` and
`tuple_byte_size`.  The combined verdict of the runtime filters and the
conjuncts on the scratch tuple at index `i` is the parameter `survives i`.
The return value is the number of rows appended to the output batch. -/

/-- The filtering loop: walks `remaining` scratch tuples starting at index
`idx` with `space` output-row slots left; returns the number of surviving
tuples appended.  Mirrors the `while (scratch_tuple != scratch_tuple_end)`
loop, which breaks when the output iterator reaches its end (checked after
each append). -/
def transferLoop (survives : Nat → Bool) : Nat → Nat → Nat → Nat
  | 0, _, _ => 0
  | remaining + 1, idx, space =>
    if survives idx then
      if space = 1 then 1  -- `++output_row; if (output_row == output_row_end) break;`
      else transferLoop survives remaining (idx + 1) (space - 1) + 1
    else transferLoop survives remaining (idx + 1) space

/-- `TransferScratchTuples`: number of rows appended to the output batch. -/
def TransferScratchTuples (capacity num_rows tuple_byte_size : Nat)
    (scratch_num_tuples scratch_tuple_idx : Nat) (survives : Nat → Bool) : Nat :=
  if tuple_byte_size = 0 then
    -- empty-tuple special case: a run of NULL tuple pointers, no predicates
    min (capacity - num_rows) (scratch_num_tuples - scratch_tuple_idx)
  else
    transferLoop survives (scratch_num_tuples - scratch_tuple_idx) scratch_tuple_idx
      (capacity - num_rows)

/-! ## Level decoding (`HdfsParquetScanner::LevelDecoder`,
hdfs-parquet-scanner.cc:1559-1684)

`LevelDecoder` extends `RleDecoder` (util/rle-encoding.h) and uses
`BitReader` (util/bit-stream-utils.h); neither utility is part of the source
tree here, so their primitives are modelled from the spec (§4.1): the RLE
stream is a sequence of alternating repeated and literal runs over
`bit_width = ceil(log2(max_level+1))`, literal values bit-packed in groups of
8.  In the model, run headers are pre-parsed into `runs` (consumed by
`NextCounts`) and literal values are read from the bit stream `bits`; a
repeated run carries its (already byte-decoded) value.  `FillCache`,
`CacheNextBatch` and `ReadLevel` themselves are translated from the
scanner source. -/

inductive RleRunHeader where
  /-- a repeated run: `count` copies of `value` -/
  | rep (count : Nat) (value : Nat)
  /-- a literal run of `groups * 8` bit-packed values -/
  | lit (groups : Nat)
  deriving DecidableEq, Repr

structure LevelDecoderState where
  bitWidth : Nat
  maxLevel : Nat
  /-- run headers not yet consumed by `NextCounts` -/
  runs : List RleRunHeader
  /-- remaining literal-value bit stream -/
  bits : List Bool
  repeatCount : Nat
  currentValue : Nat
  literalCount : Nat
  deriving DecidableEq, Repr

/-- Little-endian value of a bit list. -/
def bitsToNat : List Bool → Nat
  | [] => 0
  | b :: rest => (if b then 1 else 0) + 2 * bitsToNat rest

/-- Modelled from the spec: `BitReader::GetValue(w, &v)` — read `w` bits as an
unsigned value, failing (without consuming) on underflow. -/
def bitReaderGetValue (w : Nat) (bits : List Bool) : Option (Nat × List Bool) :=
  if w ≤ bits.length then some (bitsToNat (bits.take w), bits.drop w) else none

/-- Modelled from the spec: `RleDecoder::NextCounts` — consume the next run
header, setting the repeat or literal counters; fails at end of stream. -/
def NextCounts (d : LevelDecoderState) : Option LevelDecoderState :=
  match d.runs with
  | [] => none
  | .rep n v :: rest =>
    some { d with runs := rest, repeatCount := n, currentValue := v }
  | .lit g :: rest =>
    some { d with runs := rest, literalCount := g * 8 }

/-- Modelled from the spec: `RleDecoder::Get` — refresh the counts if both
are exhausted, then hand out a literal (from the bit stream) or the repeated
value.  No `max_level` comparison happens here. -/
def rleGet (d : LevelDecoderState) : Option (Nat × LevelDecoderState) :=
  let step (d1 : LevelDecoderState) : Option (Nat × LevelDecoderState) :=
    if 0 < d1.literalCount then
      match bitReaderGetValue d1.bitWidth d1.bits with
      | some (v, rest) =>
        some (v, { d1 with literalCount := d1.literalCount - 1, bits := rest })
      | none => none
    else if 0 < d1.repeatCount then
      some (d1.currentValue, { d1 with repeatCount := d1.repeatCount - 1 })
    else none
  if d.literalCount = 0 ∧ d.repeatCount = 0 then
    match NextCounts d with
    | none => none
    | some d1 => step d1
  else step d

inductive LevelEncoding where
  | RLE
  | BIT_PACKED
  deriving DecidableEq, Repr

def INVALID_LEVEL : Int := -1

/-- `LevelDecoder::ReadLevel` (hdfs-parquet-scanner.cc:1620-1630): one level
via `Get` (RLE) or a single bit (BIT_PACKED); `INVALID_LEVEL` on underflow.
Note there is no `max_level` check on this path. -/
def ReadLevel (encoding : LevelEncoding) (d : LevelDecoderState) :
    Int × LevelDecoderState :=
  match encoding with
  | .RLE =>
    match rleGet d with
    | some (v, d') => ((v : Int), d')
    | none => (INVALID_LEVEL, d)
  | .BIT_PACKED =>
    match bitReaderGetValue 1 d.bits with
    | some (v, rest) => ((v : Int), { d with bits := rest })
    | none => (INVALID_LEVEL, d)

/-- The literal portion of one `FillCache` iteration
(hdfs-parquet-scanner.cc:1661-1668, and the whole BIT_PACKED loop at
1675-1681 with `w = 1`): read `n` values of width `w`, failing if the bit
stream underflows or a value exceeds `maxLevel`. -/
def readLiterals (w maxLevel : Nat) : Nat → List Bool → List Nat →
    Option (List Nat × List Bool)
  | 0, bits, acc => some (acc, bits)
  | n + 1, bits, acc =>
    match bitReaderGetValue w bits with
    | none => none
    | some (v, rest) =>
      if maxLevel < v then none
      else readLiterals w maxLevel n rest (acc ++ [v])

/-- Outcome of the first half of one `FillCache` RLE loop iteration. -/
inductive FillStep where
  /-- a literal level was invalid or the bit stream underflowed -/
  | fail
  /-- the batch is full; carries the cache contents and the remaining
  bit stream and counters -/
  | done (out : List Nat) (bits : List Bool) (rc1 lc2 : Nat)
  /-- the batch is not yet full; `NextCounts` must run -/
  | more (n2 : Nat) (acc2 : List Nat) (bits2 : List Bool) (rc1 lc2 : Nat)
  deriving DecidableEq, Repr

/-- First half of one iteration of the `while (true)` loop of
`LevelDecoder::FillCache` in the RLE case (hdfs-parquet-scanner.cc:1652-1671):
flush the pending repeated run (capped at the remaining batch space), then
read the capped number of literal values, each checked against `maxLevel`,
then test `num_values == batch_size`. -/
def fillCacheFlush (maxLevel batchSize bitWidth : Nat) (bits : List Bool)
    (repeatCount currentValue literalCount numValues : Nat) (acc : List Nat) :
    FillStep :=
  let numRepeats := min repeatCount (batchSize - numValues)
  let acc1 := acc ++ List.replicate numRepeats currentValue
  let n1 := numValues + numRepeats
  let rc1 := repeatCount - numRepeats
  let numLiterals := min literalCount (batchSize - n1)
  match readLiterals bitWidth maxLevel numLiterals bits acc1 with
  | none => .fail
  | some (acc2, bits2) =>
    let n2 := n1 + numLiterals
    let lc2 := literalCount - numLiterals
    if n2 = batchSize then .done acc2 bits2 rc1 lc2
    else .more n2 acc2 bits2 rc1 lc2

/-- The `while (true)` loop of `LevelDecoder::FillCache` in the RLE case
(hdfs-parquet-scanner.cc:1652-1674), recursing on the remaining run headers:
after the flush, either the batch is complete, or `NextCounts` consumes the
next header — failing at end of stream
(`if (UNLIKELY(!NextCounts<int16_t>())) return false;`) or when a freshly
read repeated value is out of range
(`if (repeat_count_ > 0 && current_value_ > max_level_) return false;`). -/
def fillCacheRLEGo (maxLevel batchSize bitWidth : Nat) :
    List RleRunHeader → List Bool → Nat → Nat → Nat → Nat → List Nat →
    Option (List Nat × LevelDecoderState)
  | [], bits, repeatCount, currentValue, literalCount, numValues, acc =>
    match fillCacheFlush maxLevel batchSize bitWidth bits repeatCount currentValue
        literalCount numValues acc with
    | .fail => none
    | .done out bits2 rc1 lc2 =>
      some (out, ⟨bitWidth, maxLevel, [], bits2, rc1, currentValue, lc2⟩)
    | .more _ _ _ _ _ => none
  | .rep n v :: rest, bits, repeatCount, currentValue, literalCount, numValues, acc =>
    match fillCacheFlush maxLevel batchSize bitWidth bits repeatCount currentValue
        literalCount numValues acc with
    | .fail => none
    | .done out bits2 rc1 lc2 =>
      some (out, ⟨bitWidth, maxLevel, .rep n v :: rest, bits2, rc1, currentValue, lc2⟩)
    | .more n2 acc2 bits2 rc1 lc2 =>
      if 0 < n ∧ maxLevel < v then none
      else fillCacheRLEGo maxLevel batchSize bitWidth rest bits2 n v lc2 n2 acc2
  | .lit g :: rest, bits, repeatCount, currentValue, literalCount, numValues, acc =>
    match fillCacheFlush maxLevel batchSize bitWidth bits repeatCount currentValue
        literalCount numValues acc with
    | .fail => none
    | .done out bits2 rc1 lc2 =>
      some (out, ⟨bitWidth, maxLevel, .lit g :: rest, bits2, rc1, currentValue, lc2⟩)
    | .more n2 acc2 bits2 rc1 lc2 =>
      fillCacheRLEGo maxLevel batchSize bitWidth rest bits2 rc1 currentValue
        (g * 8) n2 acc2

/-- `LevelDecoder::FillCache` (hdfs-parquet-scanner.cc:1648-1684): decode the
next `batchSize` levels into the cache; the decoded prefix is returned
together with the decoder state after the call. -/
def FillCache (encoding : LevelEncoding) (batchSize : Nat)
    (d : LevelDecoderState) : Option (List Nat × LevelDecoderState) :=
  match encoding with
  | .RLE =>
    fillCacheRLEGo d.maxLevel batchSize d.bitWidth d.runs d.bits d.repeatCount
      d.currentValue d.literalCount 0 []
  | .BIT_PACKED =>
    match readLiterals 1 d.maxLevel batchSize d.bits [] with
    | none => none
    | some (acc, bits2) => some (acc, { d with bits := bits2 })

/-- `LevelDecoder::CacheNextBatch` (hdfs-parquet-scanner.cc:1632-1646): when
`max_level_ == 0` there is no level data and the pre-zeroed cache hands out
`batchSize` zeros; otherwise `FillCache` runs and a failure becomes the
decoding error status. -/
def CacheNextBatch (encoding : LevelEncoding) (batchSize : Nat)
    (d : LevelDecoderState) : Option (List Nat × LevelDecoderState) :=
  if 0 < d.maxLevel then FillCache encoding batchSize d
  else some (List.replicate batchSize 0, d)

/-- Smallest `k` with `2^k ≥ x`, i.e. `Bits::Log2Ceiling64` for `x ≥ 1`. -/
def log2CeilingGo : Nat → Nat → Nat → Nat
  | 0, _, k => k
  | fuel + 1, x, k => if x ≤ 2 ^ k then k else log2CeilingGo fuel x (k + 1)

def log2Ceiling (x : Nat) : Nat := log2CeilingGo x x 0

/-- `LevelDecoder::Init` in the RLE case (hdfs-parquet-scanner.cc:1559-1598):
records `max_level`, computes `bit_width = Log2Ceiling64(max_level + 1)` and
resets the run counters. -/
def LevelDecoderInitRLE (maxLevel : Nat) (runs : List RleRunHeader)
    (bits : List Bool) : LevelDecoderState :=
  { bitWidth := log2Ceiling (maxLevel + 1), maxLevel := maxLevel, runs := runs,
    bits := bits, repeatCount := 0, currentValue := 0, literalCount := 0 }

/-! ## File version parsing (`HdfsParquetScanner::FileVersion::FileVersion`,
hdfs-parquet-scanner.cc:3026-3072)

The constructor lowercases `created_by` (C locale `::tolower`, i.e. ASCII),
splits it on the space character with `boost::split(..., is_any_of(" "),
token_compress_on)` (adjacent separators merged; leading/trailing separators
still yield empty edge tokens), and, when there are at least three tokens and
the second is "version", parses the third: its maximal prefix of characters
from "0123456789." is split on '.' (no compression) and up to three
components go through `atoi`. -/

/-- ASCII `::tolower` (C locale). -/
def toLowerAscii (c : Char) : Char :=
  if 'A' ≤ c ∧ c ≤ 'Z' then Char.ofNat (c.toNat + 32) else c

/-- `boost::split` with `is_any_of(" ")` and `token_compress_on`:
`inDelim` is true while inside a run of separators. -/
def splitCompressGo : List Char → List Char → Bool → List (List Char)
  | [], acc, _ => [acc.reverse]
  | c :: rest, acc, inDelim =>
    if c = ' ' then
      if inDelim then splitCompressGo rest acc true
      else acc.reverse :: splitCompressGo rest [] true
    else splitCompressGo rest (c :: acc) false

def splitCompress (s : List Char) : List (List Char) :=
  splitCompressGo s [] false

/-- `boost::split` with a single separator and no token compression. -/
def splitKeepGo (sep : Char) : List Char → List Char → List (List Char)
  | [], acc => [acc.reverse]
  | c :: rest, acc =>
    if c = sep then acc.reverse :: splitKeepGo sep rest []
    else splitKeepGo sep rest (c :: acc)

def splitKeep (sep : Char) (s : List Char) : List (List Char) :=
  splitKeepGo sep s []

/-- C `isspace` (C locale). -/
def isCSpace (c : Char) : Bool :=
  c = ' ' || c = '\t' || c = '\n' || c = '\x0b' || c = '\x0c' || c = '\r'

def atoiDigitsGo : List Char → Nat → Nat
  | [], acc => acc
  | c :: rest, acc =>
    if c.isDigit then atoiDigitsGo rest (acc * 10 + (c.toNat - 48)) else acc

/-- C `atoi`: skip whitespace, optional sign, then leading digits (0 when
there are none; overflow is not modelled — version components are small). -/
def atoiCL (s : List Char) : Int :=
  match s.dropWhile isCSpace with
  | [] => 0
  | c :: rest =>
    if c = '-' then -(atoiDigitsGo rest 0 : Int)
    else if c = '+' then (atoiDigitsGo rest 0 : Int)
    else (atoiDigitsGo (c :: rest) 0 : Int)

/-- Characters of `"0123456789."` (`find_first_not_of` set). -/
def isVersionDigit (c : Char) : Bool := c.isDigit || c = '.'

def versionToken : List Char := ("version").toList

def impalaToken : List Char := ("impala").toList

def internalToken : List Char := ("-internal").toList

def leadsWith : List Char → List Char → Bool
  | [], _ => true
  | _ :: _, [] => false
  | a :: as, b :: bs => a = b && leadsWith as bs

/-- `std::string::find(needle) != npos`. -/
def containsSeq (needle : List Char) : List Char → Bool
  | [] => needle.isEmpty
  | c :: rest => leadsWith needle (c :: rest) || containsSeq needle rest

structure ImpalaVersion where
  major : Int
  minor : Int
  patch : Int
  deriving DecidableEq, Repr

structure FileVersion where
  application : List Char
  version : ImpalaVersion
  is_impala_internal : Bool
  deriving DecidableEq, Repr

/-- The `version_tokens` handling: split the trimmed version string on '.'
and `atoi` the first three components (missing components give 0). -/
def parseVersionTriple (trimmed : List Char) : ImpalaVersion :=
  let version_tokens := splitKeep '.' trimmed
  { major := match version_tokens.get? 0 with | some t => atoiCL t | none => 0
    minor := match version_tokens.get? 1 with | some t => atoiCL t | none => 0
    patch := match version_tokens.get? 2 with | some t => atoiCL t | none => 0 }

/-- `FileVersion::FileVersion(const string& created_by)`. -/
def FileVersionParse (created_by : List Char) : FileVersion :=
  let created_by_lower := created_by.map toLowerAscii
  let tokens := splitCompress created_by_lower
  let application := tokens.headD []
  match tokens with
  | _ :: t1 :: t2 :: _ =>
    if t1 = versionToken then
      let trimmed := t2.takeWhile isVersionDigit
      { application := application
        version := parseVersionTriple trimmed
        is_impala_internal := (application == impalaToken) && containsSeq internalToken t2 }
    else { application := application, version := ⟨0, 0, 0⟩, is_impala_internal := false }
  | _ => { application := application, version := ⟨0, 0, 0⟩, is_impala_internal := false }

/-- `FileVersion::VersionEq` (hdfs-parquet-scanner.cc:3070-3072). -/
def FileVersion.VersionEq (v : FileVersion) (ma mi pa : Int) : Bool :=
  v.version.major == ma && v.version.minor == mi && v.version.patch == pa

/-- `FileVersion::VersionLt` (hdfs-parquet-scanner.cc:3060-3068). -/
def FileVersion.VersionLt (v : FileVersion) (ma mi pa : Int) : Bool :=
  if v.version.major < ma then true
  else if v.version.major > ma then false
  else if v.version.minor < mi then true
  else if v.version.minor > mi then false
  else decide (v.version.patch < pa)

/-! ## Dictionary pages with a missing header
(`RequiresSkippedDictionaryHeaderCheck`, hdfs-parquet-scanner.cc:1320-1326, and
the dictionary-page branch of `ReadDataPage`, hdfs-parquet-scanner.cc:1408-1438)

Only the header-validation decisions of the dictionary-page branch are
modelled; reading the page body, decompression and the dictionary entry-count
check are orthogonal to the claim. -/

def RequiresSkippedDictionaryHeaderCheck (v : FileVersion) : Bool :=
  if v.application == impalaToken then
    v.VersionEq 1 1 0 || (v.VersionEq 1 2 0 && v.is_impala_internal)
  else false

inductive ParquetEncoding where
  | PLAIN
  | PLAIN_DICTIONARY
  | RLE
  | BIT_PACKED
  | other
  deriving DecidableEq, Repr

structure DictionaryPageHeader where
  num_values : Int
  encoding : ParquetEncoding
  deriving DecidableEq, Repr

inductive DictPageError where
  /-- "Column chunk should not contain two dictionary pages." -/
  | twoDictionaryPages
  /-- "Unexpected dictionary page. Dictionary page is not supported for booleans." -/
  | booleanDictionary
  /-- "Dictionary page does not have dictionary header set." -/
  | missingDictionaryHeader
  /-- "Only PLAIN and PLAIN_DICTIONARY encodings are supported for dictionary pages." -/
  | unsupportedDictEncoding
  deriving DecidableEq, Repr

inductive DictPageOutcome where
  /-- `slot_desc_ == NULL`: the page is skipped without decoding. -/
  | skipped
  /-- the dictionary page is accepted for decoding -/
  | accepted
  deriving DecidableEq, Repr

/-- The header-validation decisions of the DICTIONARY_PAGE branch of
`ReadDataPage`. `dict_header` is `none` when
`current_page_header_.__isset.dictionary_page_header` is false. -/
def readDictionaryPageChecks (hasSlotDesc hasDictDecoder isBooleanColumn : Bool)
    (dict_header : Option DictionaryPageHeader) (file_version : FileVersion) :
    Except DictPageError DictPageOutcome :=
  if hasSlotDesc then
    if hasDictDecoder then .error .twoDictionaryPages
    else if isBooleanColumn then .error .booleanDictionary
    else
      match dict_header with
      | none =>
        if RequiresSkippedDictionaryHeaderCheck file_version then .ok .accepted
        else .error .missingDictionaryHeader
      | some h =>
        if h.encoding = .PLAIN ∨ h.encoding = .PLAIN_DICTIONARY then .ok .accepted
        else .error .unsupportedDictEncoding
  else .ok .skipped

/-- Spec boundary scenario for row-group selection: three row groups whose
midpoints are 2,000,000, 8,000,000 and 12,000,000 (each has one column of
compressed size 2 starting one byte before the target midpoint). -/
def specRowGroupsExample : List RowGroup :=
  [ ⟨[⟨1999999, none, 2, 1⟩], 5⟩,
    ⟨[⟨7999999, none, 2, 1⟩], 5⟩,
    ⟨[⟨11999999, none, 2, 1⟩], 5⟩ ]

end Impala

namespace Impala

/-! ## Theorems for the claims -/

/-- Every index returned by `processSplitFrom idx` is at least `idx`. -/
lemma processSplitFrom_ge (fl so sl : Int) (sp : Nat → Bool) :
    ∀ (groups : List RowGroup) (idx : Nat) (l : List Nat),
      processSplitFrom fl so sl sp idx groups = .ok l → ∀ j ∈ l, idx ≤ j := by
  intro groups
  induction groups with
  | nil =>
    intro idx l h j hj
    simp only [processSplitFrom] at h
    cases h
    simp at hj
  | cons rg rest ih =>
    intro idx l h j hj
    simp only [processSplitFrom] at h
    split at h
    · exact Nat.le_of_succ_le (ih (idx + 1) l h j hj)
    · split at h
      · split at h
        · split at h
          · cases hrec : processSplitFrom fl so sl sp (idx + 1) rest with
            | error e =>
              rw [hrec] at h
              simp only [Except.map] at h
              cases h
            | ok lr =>
              rw [hrec] at h
              simp only [Except.map] at h
              cases h
              rcases List.mem_cons.mp hj with rfl | hj'
              · exact Nat.le_refl j
              · exact Nat.le_of_succ_le (ih (idx + 1) lr hrec j hj')
          · exact Nat.le_of_succ_le (ih (idx + 1) l h j hj)
        · exact Nat.le_of_succ_le (ih (idx + 1) l h j hj)
      · cases h

/-- Membership characterization of the selection loop, assuming all row
groups pass column-offset validation. -/
lemma processSplitFrom_mem_iff (fl so sl : Int) (sp : Nat → Bool) :
    ∀ (groups : List RowGroup) (idx : Nat) (l : List Nat),
      (∀ rg ∈ groups, ValidateColumnOffsets fl rg = true) →
      processSplitFrom fl so sl sp idx groups = .ok l →
      ∀ (i : Nat) (hi : i < groups.length),
        ((idx + i) ∈ l ↔
          ((groups.get ⟨i, hi⟩).num_rows ≠ 0 ∧
            rowGroupMidInSplit so sl (groups.get ⟨i, hi⟩) = true ∧
            sp (idx + i) = true)) := by
  intro groups
  induction groups with
  | nil =>
    intro idx l _ _ i hi
    exact absurd hi (Nat.not_lt_zero i)
  | cons rg rest ih =>
    intro idx l hval h i hi
    have hvrg : ValidateColumnOffsets fl rg = true := hval rg (List.mem_cons_self rg rest)
    have hvrest : ∀ rg' ∈ rest, ValidateColumnOffsets fl rg' = true :=
      fun rg' h' => hval rg' (List.mem_cons_of_mem rg h')
    simp only [processSplitFrom] at h
    by_cases h0 : rg.num_rows = 0
    · -- skipped: num_rows == 0
      rw [if_pos h0] at h
      cases i with
      | zero =>
        constructor
        · intro hmem
          have := processSplitFrom_ge fl so sl sp rest (idx + 1) l h _ hmem
          omega
        · rintro ⟨hnr, -, -⟩
          exact absurd h0 hnr
      | succ k =>
        have hk : k < rest.length := Nat.lt_of_succ_lt_succ hi
        have := ih (idx + 1) l hvrest h k hk
        rw [show idx + (k + 1) = (idx + 1) + k by omega]
        exact this
    · rw [if_neg h0, if_pos hvrg] at h
      by_cases hm : rowGroupMidInSplit so sl rg = true
      · rw [if_pos hm] at h
        by_cases hs : sp idx = true
        · -- processed: all conditions hold
          rw [if_pos hs] at h
          cases hrec : processSplitFrom fl so sl sp (idx + 1) rest with
          | error e =>
            rw [hrec] at h
            simp only [Except.map] at h
            cases h
          | ok lr =>
            rw [hrec] at h
            simp only [Except.map] at h
            cases h
            cases i with
            | zero =>
              simp only [Nat.add_zero, List.get]
              constructor
              · intro _
                exact ⟨h0, hm, hs⟩
              · intro _
                exact List.mem_cons_self idx lr
            | succ k =>
              have hk : k < rest.length := Nat.lt_of_succ_lt_succ hi
              have hiff := ih (idx + 1) lr hvrest hrec k hk
              rw [show idx + (k + 1) = (idx + 1) + k by omega]
              simp only [List.mem_cons]
              constructor
              · rintro (he | hmem)
                · exact absurd he (by omega)
                · exact (hiff.mp hmem)
              · intro hr
                exact Or.inr (hiff.mpr hr)
        · -- skipped: statistics conjuncts pruned the group
          rw [if_neg hs] at h
          cases i with
          | zero =>
            constructor
            · intro hmem
              have := processSplitFrom_ge fl so sl sp rest (idx + 1) l h _ hmem
              omega
            · rintro ⟨-, -, hsp⟩
              rw [Nat.add_zero] at hsp
              exact absurd hsp hs
          | succ k =>
            have hk : k < rest.length := Nat.lt_of_succ_lt_succ hi
            have := ih (idx + 1) l hvrest h k hk
            rw [show idx + (k + 1) = (idx + 1) + k by omega]
            exact this
      · -- skipped: midpoint outside the split
        rw [if_neg hm] at h
        cases i with
        | zero =>
          constructor
          · intro hmem
            have := processSplitFrom_ge fl so sl sp rest (idx + 1) l h _ hmem
            omega
          · rintro ⟨-, hmid, -⟩
            exact absurd hmid hm
        | succ k =>
          have hk : k < rest.length := Nat.lt_of_succ_lt_succ hi
          have := ih (idx + 1) l hvrest h k hk
          rw [show idx + (k + 1) = (idx + 1) + k by omega]
          exact this

/-- C1 counterexample: a row group whose mid-byte-offset lies inside the
split is nevertheless not processed, because its `num_rows` is 0
(hdfs-parquet-scanner.cc:1933 skips such groups before the midpoint test).
This refutes the claim's "if" direction as stated. -/
theorem processSplit_midpoint_iff_counterexample :
    processSplitRowGroups 10 0 10 (fun _ => true) [⟨[⟨0, none, 10, 1⟩], 0⟩] = .ok [] ∧
    rowGroupMidInSplit 0 10 ⟨[⟨0, none, 10, 1⟩], 0⟩ = true :=
  ⟨rfl, by decide⟩

/-- C1 (amended): assuming every row group passes column-offset validation,
`ProcessSplit` processes row group `i` if and only if its `num_rows` is
nonzero, its mid-byte-offset (start + (end - start) / 2, start being column
0's dictionary page offset when set and otherwise its data page offset, end
being the last column's start plus its `total_compressed_size`) lies in
`[split_offset, split_offset + split_length)`, and the min/max-statistics
conjunct check passes for it. -/
theorem processSplit_selection (fl so sl : Int) (sp : Nat → Bool)
    (groups : List RowGroup) (l : List Nat)
    (hval : ∀ rg ∈ groups, ValidateColumnOffsets fl rg = true)
    (hres : processSplitRowGroups fl so sl sp groups = .ok l)
    (i : Nat) (hi : i < groups.length) :
    i ∈ l ↔
      ((groups.get ⟨i, hi⟩).num_rows ≠ 0 ∧
        rowGroupMidInSplit so sl (groups.get ⟨i, hi⟩) = true ∧
        sp i = true) := by
  have := processSplitFrom_mem_iff fl so sl sp groups 0 l hval hres i hi
  simpa using this

/-- Witness for C1 on the spec's boundary scenario: midpoints
{2,000,000, 8,000,000, 12,000,000}, split [0, 10,000,000): row group 1 is
processed (and the computed selection is exactly [0, 1]). -/
theorem processSplit_selection_witness : (1 : Nat) ∈ ([0, 1] : List Nat) :=
  (processSplit_selection 13000000 0 10000000 (fun _ => true) specRowGroupsExample [0, 1]
    (by decide) (by rfl) 1 (by decide)).mpr (by decide)

/-- C2: in `EvalRuntimeFilters`, (a) a disabled filter is a complete no-op on
the row — its stats are untouched and it never rejects; (b) for an enabled
filter, the effectiveness check fires (clearing `enabled`) exactly when the
incremented `total_possible` counter is a multiple of
`ROWS_PER_FILTER_SELECTIVITY_CHECK` and the filter is always-true or its
rejection ratio is below the threshold; (c) once cleared, `enabled` stays
cleared over any further sequence of rows; (d) a row on which every filter is
disabled passes with all stats unchanged. -/
theorem evalRuntimeFilters_selectivity (f : Nat → Nat → Bool) (inp : FilterRowInput)
    (s : LocalFilterStats) (rows : List FilterRowInput)
    (filters : List (FilterRowInput × LocalFilterStats)) :
    (s.enabled = false → evalOneFilter f inp s = (s, true)) ∧
    (s.enabled = true →
      ((evalOneFilter f inp s).1.enabled = false ↔
        ((s.total_possible + 1) % ROWS_PER_FILTER_SELECTIVITY_CHECK = 0 ∧
          (inp.alwaysTrue = true ∨ f s.rejected s.considered = true)))) ∧
    (s.enabled = false → (runFilterRows f rows s).enabled = false) ∧
    ((∀ p ∈ filters, p.2.enabled = false) →
      EvalRuntimeFilters f filters = (filters.map Prod.snd, true)) := by
  have hdis : ∀ (i : FilterRowInput) (st : LocalFilterStats),
      st.enabled = false → evalOneFilter f i st = (st, true) := by
    intro i st hst
    simp [evalOneFilter, hst]
  refine ⟨hdis inp s, ?_, ?_, ?_⟩
  · intro hs
    simp only [evalOneFilter, hs, if_true]
    by_cases hc : (((s.total_possible + 1) % ROWS_PER_FILTER_SELECTIVITY_CHECK == 0) &&
        (inp.alwaysTrue || f s.rejected s.considered)) = true
    · rw [if_pos hc]
      simp only [Bool.and_eq_true, beq_iff_eq, Bool.or_eq_true] at hc
      simpa using hc
    · rw [if_neg hc]
      simp only [Bool.and_eq_true, beq_iff_eq, Bool.or_eq_true] at hc
      by_cases hp : inp.evalPasses = true <;> simp [hp, hs, hc]
  · intro hs
    induction rows generalizing s with
    | nil => simpa [runFilterRows] using hs
    | cons r rest ih =>
      simp only [runFilterRows, List.foldl_cons] at ih ⊢
      rw [hdis r s hs]
      exact ih s hs
  · intro hall
    induction filters with
    | nil => rfl
    | cons p rest ih =>
      obtain ⟨i, st⟩ := p
      have hst : st.enabled = false := hall (i, st) (List.mem_cons_self _ _)
      have hrest := ih (fun q hq => hall q (List.mem_cons_of_mem _ hq))
      simp [EvalRuntimeFilters, hdis i st hst, hrest]

/-- Witness for C2: a disabled filter (using the default reject-ratio
threshold) leaves its stats unchanged and passes the row. -/
theorem evalRuntimeFilters_selectivity_witness :
    evalOneFilter (rejectRatioBelow FLAGS_parquet_min_filter_reject_ratio)
      ⟨false, true⟩ ⟨3, 2, 100, false⟩ = (⟨3, 2, 100, false⟩, true) :=
  (evalRuntimeFilters_selectivity (rejectRatioBelow FLAGS_parquet_min_filter_reject_ratio)
    ⟨false, true⟩ ⟨3, 2, 100, false⟩ [] []).1 rfl

/-- Scalar-reader loop with a fixed reference value: success forces every
scalar reader to have drained its buffered values and to agree with the
reference `num_values_read`. -/
lemma validateScalarReaders_some_ok (abort : Bool) :
    ∀ (l : List EndOfGroupReader) (v : Nat),
      validateScalarReaders abort (some v) l = .ok () →
      ∀ r ∈ l, r.isCollection = false →
        (r.num_buffered_values = 0 ∧ r.num_values_read = v) := by
  intro l
  induction l with
  | nil => intro v _ r hr; cases hr
  | cons r0 rest ih =>
    intro v h r hr hrscal
    simp only [validateScalarReaders] at h
    rcases List.mem_cons.mp hr with rfl | hr'
    · rw [if_neg (by simp [hrscal])] at h
      by_cases hb : r.num_buffered_values = 0
      · rw [if_pos hb] at h
        simp only [Option.getD] at h
        by_cases hv : r.num_values_read = v
        · exact ⟨hb, hv⟩
        · rw [if_neg hv] at h
          cases h
      · rw [if_neg hb] at h
        cases h
    · by_cases hc : r0.isCollection = true
      · rw [if_pos hc] at h
        exact ih v h r hr' hrscal
      · rw [if_neg hc] at h
        by_cases hb : r0.num_buffered_values = 0
        · rw [if_pos hb] at h
          simp only [Option.getD] at h
          by_cases hv : r0.num_values_read = v
          · rw [if_pos hv] at h
            by_cases hm : r0.num_values_read = r0.metadata_num_values ∨ abort = false
            · rw [if_pos hm] at h
              exact ih v h r hr' hrscal
            · rw [if_neg hm] at h
              cases h
          · rw [if_neg hv] at h
            cases h
        · rw [if_neg hb] at h
          cases h

/-- Scalar-reader loop from the initial sentinel: success forces drained
buffers and pairwise agreement of `num_values_read` among scalar readers. -/
lemma validateScalarReaders_none_ok (abort : Bool) :
    ∀ l : List EndOfGroupReader,
      validateScalarReaders abort none l = .ok () →
      (∀ r ∈ l, r.isCollection = false → r.num_buffered_values = 0) ∧
      (∀ r ∈ l, ∀ s ∈ l, r.isCollection = false → s.isCollection = false →
        r.num_values_read = s.num_values_read) := by
  intro l
  induction l with
  | nil => intro _; exact ⟨fun r hr => absurd hr (List.not_mem_nil r), fun r hr => absurd hr (List.not_mem_nil r)⟩
  | cons r0 rest ih =>
    intro h
    simp only [validateScalarReaders] at h
    by_cases hc : r0.isCollection = true
    · rw [if_pos hc] at h
      obtain ⟨hbuf, hagree⟩ := ih h
      constructor
      · intro r hr hrscal
        rcases List.mem_cons.mp hr with rfl | hr'
        · exact absurd hc (by simp [hrscal])
        · exact hbuf r hr' hrscal
      · intro r hr s hs hrscal hsscal
        rcases List.mem_cons.mp hr with rfl | hr'
        · exact absurd hc (by simp [hrscal])
        · rcases List.mem_cons.mp hs with rfl | hs'
          · exact absurd hc (by simp [hsscal])
          · exact hagree r hr' s hs' hrscal hsscal
    · rw [if_neg hc] at h
      have hc' : r0.isCollection = false := by
        cases hval : r0.isCollection
        · rfl
        · exact absurd hval hc
      by_cases hb : r0.num_buffered_values = 0
      · rw [if_pos hb] at h
        simp only [Option.getD, if_pos rfl] at h
        by_cases hm : r0.num_values_read = r0.metadata_num_values ∨ abort = false
        · rw [if_pos hm] at h
          have hrest := validateScalarReaders_some_ok abort rest r0.num_values_read h
          constructor
          · intro r hr hrscal
            rcases List.mem_cons.mp hr with rfl | hr'
            · exact hb
            · exact (hrest r hr' hrscal).1
          · intro r hr s hs hrscal hsscal
            rcases List.mem_cons.mp hr with rfl | hr'
            · rcases List.mem_cons.mp hs with rfl | hs'
              · rfl
              · exact ((hrest s hs' hsscal).2).symm
            · rcases List.mem_cons.mp hs with rfl | hs'
              · exact (hrest r hr' hrscal).2
              · exact ((hrest r hr' hrscal).2).trans ((hrest s hs' hsscal).2).symm
        · rw [if_neg hm] at h
          cases h
      · rw [if_neg hb] at h
        cases h

/-- C5 counterexample: the row-count check of `ValidateEndOfRowGroup` looks
only at `column_readers[0]` (hdfs-parquet-scanner.cc:3223).  Here the first
top-level reader is a collection reader with `max_rep_level == 1`, the second
top-level reader has `max_rep_level == 0`, and `rows_read (3) ≠ num_rows (4)`,
yet validation succeeds — refuting the claim's "if ANY top-level reader has
max_rep_level == 0" reading. -/
theorem validateEndOfRowGroup_any_counterexample :
    ValidateEndOfRowGroup true
      [⟨true, 1, 0, 0, 0⟩, ⟨false, 0, 0, 7, 7⟩] 4 3 = .ok () ∧
    (([⟨true, 1, 0, 0, 0⟩, ⟨false, 0, 0, 7, 7⟩] :
        List EndOfGroupReader).get ⟨1, by decide⟩).max_rep_level = 0 ∧
    (3 : Int) ≠ 4 :=
  ⟨rfl, rfl, by decide⟩

/-- C5 (amended): when `ValidateEndOfRowGroup` succeeds, (a) if the FIRST
top-level reader has `max_rep_level == 0` then `rows_read` equals the row
group's `num_rows`; (b) every scalar reader has `num_buffered_values == 0`;
and (c) all scalar readers agree pairwise on `num_values_read` (under debug
semantics, where the agreement `DCHECK` aborts). -/
theorem validateEndOfRowGroup_enforces (abort : Bool)
    (readers : List EndOfGroupReader) (expected rows_read : Int)
    (r0 : EndOfGroupReader) (h0 : readers.head? = some r0)
    (hok : ValidateEndOfRowGroup abort readers expected rows_read = .ok ()) :
    (r0.max_rep_level = 0 → rows_read = expected) ∧
    (∀ r ∈ readers, r.isCollection = false → r.num_buffered_values = 0) ∧
    (∀ r ∈ readers, ∀ s ∈ readers, r.isCollection = false → s.isCollection = false →
      r.num_values_read = s.num_values_read) := by
  cases readers with
  | nil => cases h0
  | cons rh rest =>
    have hr0 : r0 = rh := by
      simp only [List.head?] at h0
      exact (Option.some_inj.mp h0).symm
    subst hr0
    simp only [ValidateEndOfRowGroup] at hok
    by_cases hrep : r0.max_rep_level = 0
    · rw [if_pos hrep] at hok
      by_cases hrows : rows_read = expected
      · rw [if_pos hrows] at hok
        obtain ⟨hbuf, hagree⟩ := validateScalarReaders_none_ok abort (r0 :: rest) hok
        exact ⟨fun _ => hrows, hbuf, hagree⟩
      · rw [if_neg hrows] at hok
        cases hok
    · rw [if_neg hrep] at hok
      obtain ⟨hbuf, hagree⟩ := validateScalarReaders_none_ok abort (r0 :: rest) hok
      exact ⟨fun h => absurd h hrep, hbuf, hagree⟩

/-- Witness for C5: two scalar readers with drained buffers and equal
`num_values_read`; validation succeeds and the theorem yields the row-count
equality. -/
theorem validateEndOfRowGroup_enforces_witness : (9 : Int) = 9 :=
  (validateEndOfRowGroup_enforces true
    [⟨false, 0, 0, 5, 5⟩, ⟨false, 0, 0, 5, 5⟩] 9 9 ⟨false, 0, 0, 5, 5⟩ rfl rfl).1 rfl

/-- C6: `ResolvePath` tries the conventions in the order TWO_LEVEL,
THREE_LEVEL, ONE_LEVEL and returns the outcome of the first one that
resolves without reporting a missing field; when none succeeds but at least
one reported a missing field it returns OK with `missing_field` set (and no
node); when all three fail it surfaces the three-level error. -/
theorem resolvePath_convention_order (two three one : PathHelperResult) :
    (∀ n p, two = .resolved n p → ResolvePath two three one = .ok (.resolved n p)) ∧
    (two.success? = none → ∀ n p, three = .resolved n p →
      ResolvePath two three one = .ok (.resolved n p)) ∧
    (two.success? = none → three.success? = none → ∀ n p, one = .resolved n p →
      ResolvePath two three one = .ok (.resolved n p)) ∧
    (two.success? = none → three.success? = none → one.success? = none →
      (two.isMissing || three.isMissing || one.isMissing) = true →
      ResolvePath two three one = .ok .missingField) ∧
    (∀ e2 e3 e1, two = .err e2 → three = .err e3 → one = .err e1 →
      ResolvePath two three one = .error e3) := by
  refine ⟨?_, ?_, ?_, ?_, ?_⟩
  · rintro n p rfl
    rfl
  · intro h2
    rintro n p rfl
    simp [ResolvePath, PathHelperResult.success?] at h2 ⊢
    cases two <;> simp_all [PathHelperResult.success?]
  · intro h2 h3
    rintro n p rfl
    cases two <;> cases three <;> simp_all [ResolvePath, PathHelperResult.success?]
  · intro h2 h3 h1 hmiss
    cases two <;> cases three <;> cases one <;>
      simp_all [ResolvePath, PathHelperResult.success?, PathHelperResult.isMissing]
  · rintro e2 e3 e1 rfl rfl rfl
    rfl

/-- Witness for C6: all three conventions fail; the three-level error is
surfaced. -/
theorem resolvePath_convention_order_witness :
    ResolvePath (.err 11) (.err 22) (.err 33) = .error 22 :=
  (resolvePath_convention_order (.err 11) (.err 22) (.err 33)).2.2.2.2
    11 22 33 rfl rfl rfl

/-- The filtering loop never appends more rows than it has output slots,
provided at least one slot is free on entry (the function's
`DCHECK_LT(batch_->num_rows(), batch_->capacity())` precondition). -/
lemma transferLoop_le (survives : Nat → Bool) :
    ∀ (remaining idx space : Nat), 1 ≤ space →
      transferLoop survives remaining idx space ≤ space := by
  intro remaining
  induction remaining with
  | zero => intro idx space _; simp [transferLoop]
  | succ n ih =>
    intro idx space hsp
    simp only [transferLoop]
    by_cases hs : survives idx = true
    · rw [if_pos hs]
      by_cases h1 : space = 1
      · rw [if_pos h1, h1]
      · rw [if_neg h1]
        have h2 : 1 ≤ space - 1 := by omega
        have := ih (idx + 1) (space - 1) h2
        omega
    · rw [if_neg hs]
      exact ih (idx + 1) space hsp

/-- C9: `TransferScratchTuples`, called on an output batch that is not
already full, appends at most the batch's remaining capacity, in both the
zero-byte-tuple special case and the general filtering loop; hence the
output batch never exceeds its declared capacity. -/
theorem transferScratchTuples_capacity (capacity num_rows tuple_byte_size : Nat)
    (scratch_num_tuples scratch_tuple_idx : Nat) (survives : Nat → Bool)
    (h : num_rows < capacity) :
    num_rows + TransferScratchTuples capacity num_rows tuple_byte_size
      scratch_num_tuples scratch_tuple_idx survives ≤ capacity := by
  unfold TransferScratchTuples
  by_cases hz : tuple_byte_size = 0
  · rw [if_pos hz]
    have : min (capacity - num_rows) (scratch_num_tuples - scratch_tuple_idx) ≤
        capacity - num_rows := Nat.min_le_left _ _
    omega
  · rw [if_neg hz]
    have := transferLoop_le survives (scratch_num_tuples - scratch_tuple_idx)
      scratch_tuple_idx (capacity - num_rows) (by omega)
    omega

/-- Witness for C9 at a concrete batch: capacity 8, 5 rows already present,
6 scratch tuples all surviving — at most 3 are appended. -/
theorem transferScratchTuples_capacity_witness :
    5 + TransferScratchTuples 8 5 16 6 0 (fun _ => true) ≤ 8 :=
  transferScratchTuples_capacity 8 5 16 6 0 (fun _ => true) (by decide)

/-- Values appended by `readLiterals` are bounded by `maxLevel`. -/
lemma readLiterals_sound (w maxLevel : Nat) :
    ∀ (n : Nat) (bits : List Bool) (acc out : List Nat) (bitsEnd : List Bool),
      readLiterals w maxLevel n bits acc = some (out, bitsEnd) →
      (∀ l ∈ acc, l ≤ maxLevel) → ∀ l ∈ out, l ≤ maxLevel := by
  intro n
  induction n with
  | zero =>
    intro bits acc out bitsEnd h hacc
    simp only [readLiterals] at h
    cases h
    exact hacc
  | succ k ih =>
    intro bits acc out bitsEnd h hacc
    simp only [readLiterals] at h
    split at h
    · cases h
    · rename_i v rest heq
      by_cases hv : maxLevel < v
      · rw [if_pos hv] at h
        cases h
      · rw [if_neg hv] at h
        refine ih rest (acc ++ [v]) out bitsEnd h ?_
        intro l hl
        rcases List.mem_append.mp hl with h1 | h2
        · exact hacc l h1
        · simp only [List.mem_singleton] at h2
          omega

/-- The repeated-run flush plus the accumulated cache stays bounded. -/
lemma fillCacheFlush_acc_bound (maxLevel : Nat) (cv numRepeats : Nat)
    (acc : List Nat) (hinv : 0 < numRepeats → cv ≤ maxLevel)
    (hacc : ∀ l ∈ acc, l ≤ maxLevel) :
    ∀ l ∈ acc ++ List.replicate numRepeats cv, l ≤ maxLevel := by
  intro l hl
  rcases List.mem_append.mp hl with h1 | h2
  · exact hacc l h1
  · have hv := List.eq_of_mem_replicate h2
    subst hv
    refine hinv ?_
    by_contra hz
    have : numRepeats = 0 := by omega
    subst this
    simp at h2

/-- A `.done` outcome of `fillCacheFlush` carries only bounded levels and a
bounded pending repeated run (given a bounded entry state). -/
lemma fillCacheFlush_done_sound (maxLevel batchSize bitWidth : Nat)
    (bits : List Bool) (rc cv lc nv : Nat) (acc : List Nat)
    (out : List Nat) (bits2 : List Bool) (rc1 lc2 : Nat)
    (hres : fillCacheFlush maxLevel batchSize bitWidth bits rc cv lc nv acc
      = .done out bits2 rc1 lc2)
    (hinv : 0 < rc → cv ≤ maxLevel) (hacc : ∀ l ∈ acc, l ≤ maxLevel) :
    (∀ l ∈ out, l ≤ maxLevel) ∧ (0 < rc1 → cv ≤ maxLevel) := by
  simp only [fillCacheFlush] at hres
  split at hres
  · cases hres
  · rename_i acc2 bits2' heq
    split at hres
    · cases hres
      have hacc1 := fillCacheFlush_acc_bound maxLevel cv (min rc (batchSize - nv)) acc
        (fun h => hinv (by omega)) hacc
      refine ⟨readLiterals_sound bitWidth maxLevel _ _ _ _ _ heq hacc1, ?_⟩
      intro hrc
      exact hinv (by omega)
    · cases hres

/-- A `.more` outcome of `fillCacheFlush` carries only bounded levels and a
bounded pending repeated run (given a bounded entry state). -/
lemma fillCacheFlush_more_sound (maxLevel batchSize bitWidth : Nat)
    (bits : List Bool) (rc cv lc nv : Nat) (acc : List Nat)
    (n2 : Nat) (acc2 : List Nat) (bits2 : List Bool) (rc1 lc2 : Nat)
    (hres : fillCacheFlush maxLevel batchSize bitWidth bits rc cv lc nv acc
      = .more n2 acc2 bits2 rc1 lc2)
    (hinv : 0 < rc → cv ≤ maxLevel) (hacc : ∀ l ∈ acc, l ≤ maxLevel) :
    (∀ l ∈ acc2, l ≤ maxLevel) ∧ (0 < rc1 → cv ≤ maxLevel) := by
  simp only [fillCacheFlush] at hres
  split at hres
  · cases hres
  · rename_i acc2' bits2' heq
    split at hres
    · cases hres
    · cases hres
      have hacc1 := fillCacheFlush_acc_bound maxLevel cv (min rc (batchSize - nv)) acc
        (fun h => hinv (by omega)) hacc
      refine ⟨readLiterals_sound bitWidth maxLevel _ _ _ _ _ heq hacc1, ?_⟩
      intro hrc
      exact hinv (by omega)

/-- Soundness of the `FillCache` RLE loop: on success every produced level is
bounded by `maxLevel`, and the final state keeps a bounded pending repeated
run and the same `maxLevel`. -/
lemma fillCacheRLEGo_sound (maxLevel batchSize bitWidth : Nat) :
    ∀ (runs : List RleRunHeader) (bits : List Bool) (rc cv lc nv : Nat)
      (acc out : List Nat) (d' : LevelDecoderState),
      fillCacheRLEGo maxLevel batchSize bitWidth runs bits rc cv lc nv acc
        = some (out, d') →
      (0 < rc → cv ≤ maxLevel) → (∀ l ∈ acc, l ≤ maxLevel) →
      ((∀ l ∈ out, l ≤ maxLevel) ∧
        (0 < d'.repeatCount → d'.currentValue ≤ maxLevel) ∧
        d'.maxLevel = maxLevel) := by
  intro runs
  induction runs with
  | nil =>
    intro bits rc cv lc nv acc out d' h hinv hacc
    simp only [fillCacheRLEGo] at h
    split at h
    · cases h
    · rename_i heq
      cases h
      obtain ⟨hout, hrc1⟩ :=
        fillCacheFlush_done_sound _ _ _ _ _ _ _ _ _ _ _ _ _ heq hinv hacc
      exact ⟨hout, hrc1, rfl⟩
    · cases h
  | cons hd tl ih =>
    intro bits rc cv lc nv acc out d' h hinv hacc
    cases hd with
    | rep n v =>
      simp only [fillCacheRLEGo] at h
      split at h
      · cases h
      · rename_i heq
        cases h
        obtain ⟨hout, hrc1⟩ :=
          fillCacheFlush_done_sound _ _ _ _ _ _ _ _ _ _ _ _ _ heq hinv hacc
        exact ⟨hout, hrc1, rfl⟩
      · rename_i heq
        obtain ⟨hacc2, hrc1⟩ :=
          fillCacheFlush_more_sound _ _ _ _ _ _ _ _ _ _ _ _ _ _ heq hinv hacc
        by_cases hchk : 0 < n ∧ maxLevel < v
        · rw [if_pos hchk] at h
          cases h
        · rw [if_neg hchk] at h
          refine ih _ _ _ _ _ _ _ _ h ?_ hacc2
          intro hn
          rcases Decidable.not_and_iff_or_not.mp hchk with hc | hc
          · exact absurd hn hc
          · omega
    | lit g =>
      simp only [fillCacheRLEGo] at h
      split at h
      · cases h
      · rename_i heq
        cases h
        obtain ⟨hout, hrc1⟩ :=
          fillCacheFlush_done_sound _ _ _ _ _ _ _ _ _ _ _ _ _ heq hinv hacc
        exact ⟨hout, hrc1, rfl⟩
      · rename_i heq
        obtain ⟨hacc2, hrc1⟩ :=
          fillCacheFlush_more_sound _ _ _ _ _ _ _ _ _ _ _ _ _ _ heq hinv hacc
        exact ih _ _ _ _ _ _ _ _ h hrc1 hacc2

/-- C3 counterexample: with `max_level = 2` (so `bit_width = 2`) and a
literal run whose first 2-bit value is 3, `ReadLevel` hands the level 3 to
its caller — exceeding `max_level` — without any failure, because
`RleDecoder::Get` performs no `max_level` comparison; `FillCache` on the very
same decoder state fails, showing the check exists only on the batch-cache
path. -/
theorem readLevel_exceeds_max_counterexample :
    (ReadLevel .RLE (LevelDecoderInitRLE 2 [.lit 1] (List.replicate 16 true))).1 = 3 ∧
    ¬((ReadLevel .RLE (LevelDecoderInitRLE 2 [.lit 1] (List.replicate 16 true))).1 ≤ 2) ∧
    (LevelDecoderInitRLE 2 [.lit 1] (List.replicate 16 true)).maxLevel = 2 ∧
    FillCache .RLE 1 (LevelDecoderInitRLE 2 [.lit 1] (List.replicate 16 true)) = none :=
  ⟨rfl, by decide, rfl, rfl⟩

/-- C3 (amended): every level handed out through the batch cache
(`CacheNextBatch`/`FillCache`) satisfies `0 ≤ level ≤ max_level` — the cache
fill fails on an out-of-range literal, an out-of-range freshly read repeated
value, or bitstream underflow — given the entry invariant that a pending
repeated run's value is in range (true after `Init`, preserved by the fill);
the `max_level == 0` path hands out zeros.  The single-value `ReadLevel`
path performs no `max_level` check (see the counterexample) and signals
underflow by returning `INVALID_LEVEL` (−1) instead of failing. -/
theorem levelDecoder_level_bounds (enc : LevelEncoding) (batchSize : Nat)
    (d e : LevelDecoderState) :
    (∀ levels d', (0 < d.repeatCount → d.currentValue ≤ d.maxLevel) →
      CacheNextBatch enc batchSize d = some (levels, d') →
      ((∀ l ∈ levels, l ≤ d.maxLevel) ∧
        (0 < d'.repeatCount → d'.currentValue ≤ d'.maxLevel) ∧
        d'.maxLevel = d.maxLevel)) ∧
    (rleGet e = none → ReadLevel .RLE e = (INVALID_LEVEL, e)) ∧
    (bitReaderGetValue 1 e.bits = none →
      ReadLevel .BIT_PACKED e = (INVALID_LEVEL, e)) := by
  refine ⟨?_, ?_, ?_⟩
  · intro levels d' hinv hcache
    simp only [CacheNextBatch] at hcache
    by_cases hml : 0 < d.maxLevel
    · rw [if_pos hml] at hcache
      cases enc with
      | RLE =>
        simp only [FillCache] at hcache
        obtain ⟨hout, hinv', hml'⟩ :=
          fillCacheRLEGo_sound d.maxLevel batchSize d.bitWidth d.runs d.bits
            d.repeatCount d.currentValue d.literalCount 0 [] levels d' hcache hinv
            (fun l hl => absurd hl (List.not_mem_nil l))
        exact ⟨hout, by rw [hml']; exact hinv', hml'⟩
      | BIT_PACKED =>
        simp only [FillCache] at hcache
        cases hrl : readLiterals 1 d.maxLevel batchSize d.bits [] with
        | none =>
          rw [hrl] at hcache
          cases hcache
        | some pr =>
          obtain ⟨acc, bits2⟩ := pr
          rw [hrl] at hcache
          cases hcache
          refine ⟨readLiterals_sound 1 d.maxLevel _ _ _ _ _ hrl
            (fun l hl => absurd hl (List.not_mem_nil l)), ?_, rfl⟩
          exact hinv
    · rw [if_neg hml] at hcache
      cases hcache
      refine ⟨?_, hinv, rfl⟩
      intro l hl
      have := List.eq_of_mem_replicate hl
      omega
  · intro hget
    simp only [ReadLevel, hget]
  · intro hbits
    simp only [ReadLevel, hbits]

/-- Witness for C3 on a concrete decoder: `max_level = 1`, a repeated run of
three 1s; the cached batch is `[1, 1, 1]`, all within `max_level`. -/
theorem levelDecoder_level_bounds_witness :
    ∀ l ∈ [1, 1, 1], l ≤ (LevelDecoderInitRLE 1 [.rep 3 1, .lit 1] []).maxLevel :=
  (((levelDecoder_level_bounds .RLE 3 (LevelDecoderInitRLE 1 [.rep 3 1, .lit 1] [])
      (LevelDecoderInitRLE 1 [] [])).1
    [1, 1, 1] ⟨1, 1, [.lit 1], [], 0, 1, 0⟩ (by decide) (by rfl))).1

/-- C8 counterexample: for `created_by = "parquet-mr version 1.0.0-internal"`
the version string (third token) contains "-internal", yet
`is_impala_internal` is false, because hdfs-parquet-scanner.cc:3050 also
requires the application token to equal "impala". -/
theorem fileVersion_internal_counterexample :
    (FileVersionParse (("parquet-mr version 1.0.0-internal").toList)).is_impala_internal
        = false ∧
    splitCompress ((("parquet-mr version 1.0.0-internal").toList).map toLowerAscii) =
      [("parquet-mr").toList, ("version").toList, ("1.0.0-internal").toList] ∧
    containsSeq internalToken (("1.0.0-internal").toList) = true := by
  refine ⟨by decide, by decide, by decide⟩

/-- C8 (amended): `FileVersion` lowercases `created_by` (ASCII) and splits it
on space characters with compression of adjacent separators; the application
is the first token; the `M.m.p` version is parsed from the third token
exactly when there are at least three tokens and the second token is
"version" (otherwise the version is 0.0.0); and `is_impala_internal` is set
exactly when, in addition to the version token being parsed, the application
is "impala" and the third token contains "-internal". -/
theorem fileVersionParse_characterization (created_by : List Char) :
    (FileVersionParse created_by).application =
      (splitCompress (created_by.map toLowerAscii)).headD [] ∧
    ((FileVersionParse created_by).is_impala_internal = true ↔
      (∃ t0 t1 t2 rest, splitCompress (created_by.map toLowerAscii) = t0 :: t1 :: t2 :: rest ∧
        t1 = versionToken ∧ t0 = impalaToken ∧ containsSeq internalToken t2 = true)) ∧
    (∀ t0 t1 t2 rest, splitCompress (created_by.map toLowerAscii) = t0 :: t1 :: t2 :: rest →
      t1 = versionToken →
      (FileVersionParse created_by).version =
        parseVersionTriple (t2.takeWhile isVersionDigit)) ∧
    (∀ t0 t1 t2 rest, splitCompress (created_by.map toLowerAscii) = t0 :: t1 :: t2 :: rest →
      t1 ≠ versionToken → (FileVersionParse created_by).version = ⟨0, 0, 0⟩) ∧
    ((splitCompress (created_by.map toLowerAscii)).length < 3 →
      (FileVersionParse created_by).version = ⟨0, 0, 0⟩) := by
  rcases hts : splitCompress (created_by.map toLowerAscii) with _ | ⟨t0, _ | ⟨t1, _ | ⟨t2, rest⟩⟩⟩
  · refine ⟨?_, ?_, ?_, ?_, ?_⟩ <;>
      simp [FileVersionParse, hts]
  · refine ⟨?_, ?_, ?_, ?_, ?_⟩ <;>
      simp [FileVersionParse, hts]
  · refine ⟨?_, ?_, ?_, ?_, ?_⟩ <;>
      simp [FileVersionParse, hts]
  · by_cases hv : t1 = versionToken
    · refine ⟨?_, ?_, ?_, ?_, ?_⟩
      · simp [FileVersionParse, hts, hv]
      · simp [FileVersionParse, hts, hv, List.cons.injEq, and_assoc]
      · intro a b c r hinj hbv
        obtain ⟨rfl, rfl, rfl, rfl⟩ : t0 = a ∧ t1 = b ∧ t2 = c ∧ rest = r := by
          simpa [List.cons.injEq] using hinj
        simp [FileVersionParse, hts, hv]
      · intro a b c r hinj hbv
        obtain ⟨rfl, rfl, rfl, rfl⟩ : t0 = a ∧ t1 = b ∧ t2 = c ∧ rest = r := by
          simpa [List.cons.injEq] using hinj
        exact absurd hv hbv
      · intro hlen
        simp at hlen
        omega
    · refine ⟨?_, ?_, ?_, ?_, ?_⟩
      · simp [FileVersionParse, hts, hv]
      · simp [FileVersionParse, hts, hv, List.cons.injEq]
      · intro a b c r hinj hbv
        obtain ⟨rfl, rfl, rfl, rfl⟩ : t0 = a ∧ t1 = b ∧ t2 = c ∧ rest = r := by
          simpa [List.cons.injEq] using hinj
        exact absurd hbv hv
      · intro a b c r hinj hbv
        simp [FileVersionParse, hts, hv]
      · intro hlen
        simp at hlen
        omega

/-- Witness for C8 on `created_by = "impala version 1.1.0"`: the version
parses to 1.1.0. -/
theorem fileVersionParse_characterization_witness :
    (FileVersionParse (("impala version 1.1.0").toList)).version = ⟨1, 1, 0⟩ := by
  have h := (fileVersionParse_characterization (("impala version 1.1.0").toList)).2.2.1
    (("impala").toList) (("version").toList) (("1.1.0").toList) [] (by decide) (by decide)
  rw [h]
  decide

/-- C4: a dictionary page whose header lacks `dictionary_page_header` is
accepted iff the file's `created_by` parses to application "impala" with
version 1.1.0, or version 1.2.0 with the internal marker; any other file
version yields the missing-dictionary-header error.  The spec's two concrete
cases: "impala version 1.1.0" is accepted, "impala version 1.3.0" is
rejected. -/
theorem dictPageMissingHeader_versions (created_by : List Char) :
    (readDictionaryPageChecks true false false none (FileVersionParse created_by)
        = .ok .accepted ↔
      ((FileVersionParse created_by).application = impalaToken ∧
        ((FileVersionParse created_by).version = ⟨1, 1, 0⟩ ∨
          ((FileVersionParse created_by).version = ⟨1, 2, 0⟩ ∧
            (FileVersionParse created_by).is_impala_internal = true)))) ∧
    (readDictionaryPageChecks true false false none (FileVersionParse created_by)
        = .ok .accepted ∨
      readDictionaryPageChecks true false false none (FileVersionParse created_by)
        = .error .missingDictionaryHeader) ∧
    readDictionaryPageChecks true false false none
      (FileVersionParse (("impala version 1.1.0").toList)) = .ok .accepted ∧
    readDictionaryPageChecks true false false none
      (FileVersionParse (("impala version 1.3.0").toList)) = .error .missingDictionaryHeader := by
  refine ⟨?_, ?_, by rfl, by rfl⟩
  · simp only [readDictionaryPageChecks, if_pos rfl]
    by_cases hr : RequiresSkippedDictionaryHeaderCheck (FileVersionParse created_by) = true
    · rw [if_pos hr]
      refine ⟨fun _ => ?_, fun _ => rfl⟩
      revert hr
      simp only [RequiresSkippedDictionaryHeaderCheck]
      by_cases ha : (FileVersionParse created_by).application == impalaToken
      · rw [if_pos ha]
        intro hr
        refine ⟨by simpa using ha, ?_⟩
        simp only [Bool.or_eq_true, Bool.and_eq_true, FileVersion.VersionEq,
          beq_iff_eq] at hr
        have heta : (FileVersionParse created_by).version =
            ⟨(FileVersionParse created_by).version.major,
              (FileVersionParse created_by).version.minor,
              (FileVersionParse created_by).version.patch⟩ := rfl
        rcases hr with ⟨⟨h1, h2⟩, h3⟩ | ⟨⟨⟨h1, h2⟩, h3⟩, h4⟩
        · left
          rw [heta, h1, h2, h3]
        · right
          refine ⟨?_, h4⟩
          rw [heta, h1, h2, h3]
      · rw [if_neg ha]
        intro hr
        cases hr
    · rw [if_neg hr]
      constructor
      · intro h
        cases h
      · rintro ⟨ha, hver⟩
        exfalso
        apply hr
        rcases hver with h110 | ⟨h120, hint⟩
        · simp [RequiresSkippedDictionaryHeaderCheck, FileVersion.VersionEq, ha, h110]
        · simp [RequiresSkippedDictionaryHeaderCheck, FileVersion.VersionEq, ha, h120, hint]
  · simp only [readDictionaryPageChecks, if_pos rfl]
    by_cases hr : RequiresSkippedDictionaryHeaderCheck (FileVersionParse created_by) = true
    · rw [if_pos hr]
      exact Or.inl rfl
    · rw [if_neg hr]
      exact Or.inr rfl

/-- Witness for C4: the internal-marked 1.2.0 case is accepted, obtained from
the characterization's iff. -/
theorem dictPageMissingHeader_versions_witness :
    readDictionaryPageChecks true false false none
      (FileVersionParse (("impala version 1.2.0-internal").toList)) = .ok .accepted :=
  ((dictPageMissingHeader_versions (("impala version 1.2.0-internal").toList)).1).mpr
    (by refine ⟨by decide, Or.inr ⟨by decide, by decide⟩⟩)

/-- C10: For every `MinMaxVal` object and every argument value, `SetMin`,
`SetMax` and `SetMinMax` leave the object's `min` and `max` fields unchanged:
each body's assignment is a self-assignment of the shadowing parameter, so a
`MinMaxVal` can only be given non-default bounds through its constructor or
assignment operator. -/
theorem minMaxVal_setters_no_op (v : MinMaxVal) (a b : Int) :
    v.SetMin a = v ∧ v.SetMax b = v ∧ v.SetMinMax a b = v := by
  refine ⟨?_, ?_, ?_⟩ <;>
    simp [MinMaxVal.SetMin, MinMaxVal.SetMax, MinMaxVal.SetMinMax,
      MMScope.assign, MMScope.lookup, List.find?]

/-- C7: the converted CHAR value has length exactly `n`; a shorter source is
right-padded with ASCII spaces, a longer source is truncated to its first `n`
bytes. -/
theorem convertSlotChar_spec (n : Nat) (src : List Char) :
    (convertSlotChar n src).length = n ∧
    (src.length ≤ n → convertSlotChar n src = src ++ List.replicate (n - src.length) ' ') ∧
    (n ≤ src.length → convertSlotChar n src = src.take n) := by
  refine ⟨?_, ?_, ?_⟩
  · simp only [convertSlotChar, List.length_append, List.length_take, List.length_replicate]
    omega
  · intro h
    simp [convertSlotChar, Nat.min_eq_right h, List.take_of_length_le h]
  · intro h
    simp [convertSlotChar, Nat.min_eq_left h, Nat.sub_eq_zero_of_le h]

/-- Witness for C7 at the spec's concrete example: reading `"ab"` into a
`CHAR(5)` slot yields `"ab   "`, and `"abcdef"` yields `"abcde"`. -/
theorem convertSlotChar_spec_witness :
    convertSlotChar 5 [ 'a', 'b' ] = [ 'a', 'b', ' ', ' ', ' ' ] ∧
    convertSlotChar 5 [ 'a', 'b', 'c', 'd', 'e', 'f' ] = [ 'a', 'b', 'c', 'd', 'e' ] := by
  constructor
  · have h := (convertSlotChar_spec 5 [ 'a', 'b' ]).2.1 (by decide)
    simpa using h
  · have h := (convertSlotChar_spec 5 [ 'a', 'b', 'c', 'd', 'e', 'f' ]).2.2 (by decide)
    simpa using h

end Impala
